import Mathlib

/-!
Verification of the brigodier command parsing and dispatching library.

This file gives a shallow embedding of the library's core: the positional
string reader with its quoted/unquoted readers, the grammar tree (root,
literal and argument nodes held in an arena indexed by natural numbers, so
that Go pointer identity becomes index equality), the recursive
multi-alternative parse engine, the execution walk over the resulting
context chain, the suggestion builder and merger, and the Path/FindNode
pair.  Go strings are modelled as lists of characters with byte positions
as list indices; Go maps are modelled as association lists holding the
map's entries (the list order stands for one iteration order of the map;
where a property depends on the unspecified iteration order of a Go map
this is made explicit through the GoMapIteration predicate).  Mutation of
a reader or context becomes explicit state passing; fallible operations
return Except paired with the final reader state, mirroring the reader
pointer carried inside the library's ReaderError values.  Loops that
advance the cursor while it is below the end of the input are expressed
with an explicit bound equal to the number of unread characters, which is
exactly the number of iterations the Go loop can make.
-/

namespace Brigodier

/-- Association list lookup by key; models indexing a Go map (`m[k]`). -/
def lookupA {β : Type} (k : List Char) : List (List Char × β) → Option β
  | [] => none
  | (k', v) :: rest => if k = k' then some v else lookupA k rest

/-- Association list insert-or-replace; models Go map assignment (`m[k] = v`). -/
def insertA {β : Type} (k : List Char) (v : β) : List (List Char × β) → List (List Char × β)
  | [] => [(k, v)]
  | (k', v') :: rest => if k = k' then (k, v) :: rest else (k', v') :: insertA k v rest

/-- The keys of an association list are pairwise distinct, as they are in a Go map. -/
def keysNodup {β : Type} : List (List Char × β) → Bool
  | [] => true
  | (k, _) :: rest => !(rest.any (fun kv => kv.1 = k)) && keysNodup rest

/-- Go map iteration order is unspecified: a legal iteration of a map whose
entries are the association list m is any permutation of m. -/
def GoMapIteration {β : Type} (m l : List (List Char × β)) : Prop := List.Perm m l

/-- Slice of a list of characters, modelling the Go string slice s[a:b]. -/
def sliceL (s : List Char) (a b : Nat) : List Char := (s.take b).drop a

/-- Models strings.HasPrefix(s, pre): s begins with pre. -/
def HasPrefixGo : List Char → List Char → Bool
  | _, [] => true
  | [], _ :: _ => false
  | c :: s, p :: ps => c = p && HasPrefixGo s ps

/-- Models strings.EqualFold on ASCII input: equality up to letter case. -/
def EqualFold (a b : List Char) : Bool := a.map Char.toLower = b.map Char.toLower

/-- One bubbling step of Go's insertion sort, on a reversed prefix: the new
element x moves left past every element y with less x y, stopping at the
first element for which the comparison fails. -/
def insertGoRev {α : Type} (less : α → α → Bool) (x : α) : List α → List α
  | [] => [x]
  | y :: ys => if less x y then y :: insertGoRev less x ys else x :: y :: ys

/-- Tail of Go's insertion sort: the first argument is the already sorted
prefix in reversed order. -/
def sortSliceGoAux {α : Type} (less : α → α → Bool) : List α → List α → List α
  | sortedRev, [] => sortedRev.reverse
  | sortedRev, x :: xs => sortSliceGoAux less (insertGoRev less x sortedRev) xs

/-- Model of Go's sort.Slice with the given less function.  For slices of
fewer than 12 elements (every use in this development) Go's pdqsort is
exactly this insertion sort. -/
def sortSliceGo {α : Type} (less : α → α → Bool) (l : List α) : List α :=
  sortSliceGoAux less [] l

/-- String range [Start, End) of byte offsets, from reader.go. -/
structure StringRange where
  Start : Int
  End : Int
deriving DecidableEq

/-- StringRange.IsEmpty: Start and End are equal. -/
def StringRange.IsEmpty (r : StringRange) : Bool := r.Start = r.End

/-- EncompassingRange: the min of the starts and the max of the ends. -/
def EncompassingRange (r1 r2 : StringRange) : StringRange :=
  { Start := min r1.Start r2.Start, End := max r1.End r2.End }

/-- StringReader from reader.go: an input string with a cursor. -/
structure StringReader where
  Cursor : Nat
  String : List Char
deriving DecidableEq

/-- StringReader.CanReadLen: the next length characters can be read. -/
def StringReader.CanReadLen (r : StringReader) (length : Nat) : Bool :=
  r.Cursor + length ≤ r.String.length

/-- StringReader.CanRead: one more character can be read. -/
def StringReader.CanRead (r : StringReader) : Bool := r.CanReadLen 1

/-- StringReader.Peek: the character at the cursor (only meaningful under
CanRead; the default is never reached by the guarded uses below). -/
def StringReader.Peek (r : StringReader) : Char := r.String.getD r.Cursor (Char.ofNat 0)

/-- StringReader.Skip: increment the cursor. -/
def StringReader.Skip (r : StringReader) : StringReader := { r with Cursor := r.Cursor + 1 }

/-- StringReader.Remaining: the input from the cursor on. -/
def StringReader.Remaining (r : StringReader) : List Char := r.String.drop r.Cursor

/-- StringReader.RemainingLen: number of unread characters. -/
def StringReader.RemainingLen (r : StringReader) : Nat := r.String.length - r.Cursor

/-- ArgumentSeparator: the space separating arguments. -/
def ArgumentSeparator : Char := ' '

/-- SyntaxDoubleQuote from reader.go. -/
def DoubleQuoteChar : Char := Char.ofNat 34

/-- SyntaxSingleQuote from reader.go. -/
def SingleQuoteChar : Char := Char.ofNat 39

/-- SyntaxEscape from reader.go. -/
def EscapeChar : Char := Char.ofNat 92

/-- IsAllowedNumber from reader.go. -/
def IsAllowedNumber (c : Char) : Bool :=
  (Char.ofNat 48 ≤ c && c ≤ Char.ofNat 57) || c = '.' || c = '-'

/-- IsQuotedStringStart from reader.go. -/
def IsQuotedStringStart (c : Char) : Bool := c = DoubleQuoteChar || c = SingleQuoteChar

/-- IsAllowedInUnquotedString from reader.go. -/
def IsAllowedInUnquotedString (c : Char) : Bool :=
  (Char.ofNat 48 ≤ c && c ≤ Char.ofNat 57) ||
  (Char.ofNat 65 ≤ c && c ≤ Char.ofNat 90) ||
  (Char.ofNat 97 ≤ c && c ≤ Char.ofNat 122) ||
  c = '_' || c = '-' || c = '.' || c = '+'

/-- Error kinds raised by the library.  The Go code wraps these in
CommandSyntaxError and ReaderError shells carrying a reader pointer; the
reader state is modelled by returning the final reader next to the error. -/
inductive Err where
  | expectedStartOfQuote
  | expectedEndOfQuote
  | invalidEscape (c : Char)
  | expectedInt
  | invalidInt (number : List Char)
  | expectedBool
  | invalidBool (value : List Char)
  | incorrectLiteral (literal : List Char)
  | expectedArgumentSeparator
  | unknownCommand
  | unknownArgument
  | intTooLow (result : Int)
  | intTooHigh (result : Int)
  | custom (n : Nat)
deriving DecidableEq

/-- Loop of StringReader.ReadStringUntil: read until the unescaped
terminator, honoring escapes of the terminator and of the escape
character itself.  The first argument is the iteration bound, supplied as
the number of unread characters, which is exactly when the Go loop's
CanRead condition turns false. -/
def ReadStringUntilAux (terminator : Char) :
    Nat → StringReader → List Char → Bool → (Except Err (List Char)) × StringReader
  | 0, r, _, _ => (.error .expectedEndOfQuote, r)
  | fuel + 1, r, result, escaped =>
    if r.CanRead then
      let c := r.Peek
      let r' := r.Skip
      if escaped then
        if c = terminator || c = EscapeChar then
          ReadStringUntilAux terminator fuel r' (result ++ [c]) false
        else
          (.error (.invalidEscape c), { r' with Cursor := r'.Cursor - 1 })
      else if c = EscapeChar then
        ReadStringUntilAux terminator fuel r' result true
      else if c = terminator then
        (.ok result, r')
      else
        ReadStringUntilAux terminator fuel r' (result ++ [c]) false
    else (.error .expectedEndOfQuote, r)

/-- StringReader.ReadStringUntil from reader.go. -/
def ReadStringUntil (terminator : Char) (r : StringReader) :
    (Except Err (List Char)) × StringReader :=
  ReadStringUntilAux terminator r.RemainingLen r [] false

/-- Loop of StringReader.ReadUnquotedString: skip while the character is
allowed in an unquoted string.  Bound as in ReadStringUntilAux. -/
def ReadUnquotedStringAux : Nat → StringReader → StringReader
  | 0, r => r
  | fuel + 1, r =>
    if r.CanRead && IsAllowedInUnquotedString r.Peek then ReadUnquotedStringAux fuel r.Skip
    else r

/-- StringReader.ReadUnquotedString from reader.go. -/
def ReadUnquotedString (r : StringReader) : List Char × StringReader :=
  let r' := ReadUnquotedStringAux r.RemainingLen r
  (sliceL r.String r.Cursor r'.Cursor, r')

/-- StringReader.ReadQuotedString from reader.go: empty input reads as the
empty string; otherwise the next character must open a quote. -/
def ReadQuotedString (r : StringReader) : (Except Err (List Char)) × StringReader :=
  if !r.CanRead then (.ok [], r)
  else if IsQuotedStringStart r.Peek then ReadStringUntil r.Peek r.Skip
  else (.error .expectedStartOfQuote, r)

/-- StringReader.ReadString from reader.go: quoted or unquoted depending on
the next character. -/
def ReadString (r : StringReader) : (Except Err (List Char)) × StringReader :=
  if !r.CanRead then (.ok [], r)
  else if IsQuotedStringStart r.Peek then ReadStringUntil r.Peek r.Skip
  else
    let (s, r') := ReadUnquotedString r
    (.ok s, r')

/-- Characters of the word true. -/
def trueChars : List Char := ['t', 'r', 'u', 'e']

/-- Characters of the word false. -/
def falseChars : List Char := ['f', 'a', 'l', 's', 'e']

/-- StringReader.ReadBool from reader.go. -/
def ReadBool (r : StringReader) : (Except Err Bool) × StringReader :=
  let start := r.Cursor
  match ReadString r with
  | (.error e, r') => (.error e, r')
  | (.ok value, r') =>
    if value = [] then (.error .expectedBool, r')
    else if EqualFold value trueChars then (.ok true, r')
    else if EqualFold value falseChars then (.ok false, r')
    else (.error (.invalidBool value), { r' with Cursor := start })

/-- Numeric value of a list of digits, most significant first. -/
def digitsValAcc (acc : Nat) : List Char → Option Nat
  | [] => some acc
  | c :: rest => if c.isDigit then digitsValAcc (acc * 10 + (c.toNat - 48)) rest else none

/-- Model of strconv.ParseInt(s, 0, bits): an optional minus sign followed
by decimal digits.  The reader only feeds it characters from the set
digits, dot and minus, so the radix autodetection of the Go function can
only ever see decimal input here; the octal reading of a leading zero
and the bit-size overflow check are not modelled (no claim depends on
them). -/
def ParseIntGo : List Char → Option Int
  | '-' :: rest =>
    if rest = [] then none else (digitsValAcc 0 rest).map (fun n => -(n : Int))
  | s => if s = [] then none else (digitsValAcc 0 s).map (fun n => (n : Int))

/-- Loop of readInt/readFloat: skip while the character is in the allowed
number set. -/
def ReadNumberAux : Nat → StringReader → StringReader
  | 0, r => r
  | fuel + 1, r =>
    if r.CanRead && IsAllowedNumber r.Peek then ReadNumberAux fuel r.Skip
    else r

/-- StringReader.readInt from reader.go (the 32 bit entry ReadInt). -/
def ReadIntGo (r : StringReader) : (Except Err Int) × StringReader :=
  let start := r.Cursor
  let r' := ReadNumberAux r.RemainingLen r
  let number := sliceL r.String start r'.Cursor
  if number = [] then (.error .expectedInt, r')
  else
    match ParseIntGo number with
    | some i => (.ok i, r')
    | none => (.error (.invalidInt number), { r' with Cursor := start })

/-- Suggestion from suggestions.go: a text within a string range.  The
Tooltip (a fmt.Stringer) is opaque and modelled by an optional number. -/
structure Suggestion where
  Range : StringRange
  Text : List Char
  Tooltip : Option Nat
deriving DecidableEq

set_option linter.dupNamespace false in
/-- Suggestions from suggestions.go: command suggestions within a range
(the field keeps the source's name, hence the disabled linter). -/
structure Suggestions where
  Range : StringRange
  Suggestions : List Suggestion
deriving DecidableEq

/-- The emptySuggestions value of suggestions.go (zero value struct). -/
def emptySuggestions : Suggestions := { Range := { Start := 0, End := 0 }, Suggestions := [] }

/-- SuggestionsBuilder from suggestions.go. -/
structure SuggestionsBuilder where
  Input : List Char
  InputLowerCase : List Char
  Start : Nat
  Remaining : List Char
  RemainingLowerCase : List Char
  Result : List Suggestion
deriving DecidableEq

/-- SuggestionsBuilder.Suggest: append the suggestion, covering the input
from the builder start to its end, unless the text equals the remaining
input. -/
def SuggestionsBuilder.Suggest (b : SuggestionsBuilder) (text : List Char) : SuggestionsBuilder :=
  if text ≠ b.Remaining then
    { b with Result := b.Result ++
        [{ Range := { Start := (b.Start : Int), End := (b.Input.length : Int) },
           Text := text, Tooltip := none }] }
  else b

/-- Suggestion.compareToIgnoreCase from suggestions.go: strings.EqualFold
of the two texts (used as the less function of the sort). -/
def compareToIgnoreCase (s other : Suggestion) : Bool := EqualFold s.Text other.Text

/-- Slice of the command string by Int endpoints (always applied to
non-negative offsets). -/
def sliceLInt (s : List Char) (a b : Int) : List Char := sliceL s a.toNat b.toNat

/-- Suggestion.Expand from suggestions.go: if the overall range differs
from the suggestion's, splice the literal command text around the
suggestion's text so that it spans the overall range; the suggestion's
own Range field is kept as it is. -/
def Suggestion.Expand (s : Suggestion) (command : List Char) (strRange : StringRange) : Suggestion :=
  if strRange = s.Range then s
  else
    { Range := s.Range,
      Text :=
        (if strRange.Start < s.Range.Start then sliceLInt command strRange.Start s.Range.Start
         else []) ++ s.Text ++
        (if strRange.End > s.Range.End then sliceLInt command s.Range.End strRange.End
         else []),
      Tooltip := s.Tooltip }

/-- Deduplication loop of CreateSuggestion: keep the first suggestion for
each text, expanding each kept one to the overall range. -/
def dedupExpand (command : List Char) (strRange : StringRange) :
    List Suggestion → List (List Char) → List Suggestion
  | [], _ => []
  | s :: rest, seen =>
    if s.Text ∈ seen then dedupExpand command strRange rest seen
    else s.Expand command strRange :: dedupExpand command strRange rest (s.Text :: seen)

/-- CreateSuggestion from suggestions.go: overall range from the min start
and max end over all given suggestions (starting from the int32
sentinels), deduplicate by text, expand, then sort.Slice with
compareToIgnoreCase as the less function. -/
def CreateSuggestion (command : List Char) (suggestions : List Suggestion) : Suggestions :=
  if suggestions = [] then emptySuggestions
  else
    let start := suggestions.foldl (fun acc s => min s.Range.Start acc) 2147483647
    let stop := suggestions.foldl (fun acc s => max s.Range.End acc) (-2147483648)
    let strRange : StringRange := { Start := start, End := stop }
    let a := dedupExpand command strRange suggestions []
    { Range := strRange, Suggestions := sortSliceGo compareToIgnoreCase a }

/-- Deduplication loop of MergeSuggestions, keeping the first suggestion
for each text (the nested Go loops walk the concatenation of the
suggestion lists in order). -/
def dedupByText : List Suggestion → List (List Char) → List Suggestion
  | [], _ => []
  | s :: rest, seen =>
    if s.Text ∈ seen then dedupByText rest seen
    else s :: dedupByText rest (s.Text :: seen)

/-- MergeSuggestions from suggestions.go. -/
def MergeSuggestions (command : List Char) (input : List Suggestions) : Suggestions :=
  match input with
  | [] => emptySuggestions
  | [single] => single
  | _ => CreateSuggestion command (dedupByText (input.flatMap fun sl => sl.Suggestions) [])

/-- SuggestionsBuilder.Build from suggestions.go. -/
def SuggestionsBuilder.Build (b : SuggestionsBuilder) : Suggestions :=
  CreateSuggestion b.Input b.Result

/-- The SuggestionsFn of the builtin Bool argument type from types.go:
suggest true when the lowercase remaining input is a prefix of true,
otherwise suggest false when it is a prefix of false. -/
def boolSuggestionsFn (b : SuggestionsBuilder) : Suggestions :=
  let b' :=
    if HasPrefixGo trueChars b.RemainingLowerCase then b.Suggest trueChars
    else if HasPrefixGo falseChars b.RemainingLowerCase then b.Suggest falseChars
    else b
  b'.Build

/-- Parsed argument values of the builtin argument types (the dynamic
Result field of ParsedArgument). -/
inductive Value where
  | bool (b : Bool)
  | int (i : Int)
  | str (s : List Char)
deriving DecidableEq

/-- StringType from types.go. -/
inductive StringKind where
  | SingleWord
  | QuotablePhase
  | GreedyPhrase
deriving DecidableEq

/-- The builtin argument types of types.go: Bool, Int with bounds, and the
three string kinds.  The float types are omitted: no verified claim
touches them and floating point is outside the embedding. -/
inductive ArgType where
  | bool
  | int (Min Max : Int)
  | str (kind : StringKind)
deriving DecidableEq

/-- The Int argument type with its default int32 bounds from types.go. -/
def IntArgDefault : ArgType := .int (-2147483648) 2147483647

/-- ArgumentType.Parse for the builtin types (types.go): Bool delegates to
ReadBool; Int reads an int then bounds-checks, rewinding on an
out-of-range value; the string kinds consume the whole remaining input
(greedy), an unquoted word, or a quoted-or-unquoted string. -/
def ArgTypeParse : ArgType → StringReader → (Except Err Value) × StringReader
  | .bool, rd =>
    match ReadBool rd with
    | (.error e, rd') => (.error e, rd')
    | (.ok b, rd') => (.ok (.bool b), rd')
  | .int lo hi, rd =>
    let start := rd.Cursor
    match ReadIntGo rd with
    | (.error e, rd') => (.error e, rd')
    | (.ok result, rd') =>
      if result < lo then (.error (.intTooLow result), { rd' with Cursor := start })
      else if result > hi then (.error (.intTooHigh result), { rd' with Cursor := start })
      else (.ok (.int result), rd')
  | .str .GreedyPhrase, rd =>
    (.ok (.str rd.Remaining), { rd with Cursor := rd.String.length })
  | .str .SingleWord, rd =>
    let (s, rd') := ReadUnquotedString rd
    (.ok (.str s), rd')
  | .str .QuotablePhase, rd =>
    match ReadString rd with
    | (.error e, rd') => (.error e, rd')
    | (.ok s, rd') => (.ok (.str s), rd')

/-- Kind of a command node: root, literal or argument (brigodier.go). -/
inductive NodeKind where
  | root
  | literal (Literal : List Char)
  | argument (Name : List Char) (ArgumentType : ArgType)

/-- A command node of the grammar tree (the Node struct of brigodier.go
plus the variant-specific data).  Child nodes are referenced by their
index in the dispatcher's node arena, so Go pointer identity is index
equality.  Children, Literals and Arguments model the corresponding Go
maps as association lists; Children doubles as ChildrenOrdered.
Command and Modifier are identifiers resolved by environments passed to
Execute; Requirement is the optional CanUse predicate over the host
context (modelled by a number). -/
structure GNode where
  Kind : NodeKind
  Children : List (List Char × Nat)
  Literals : List (List Char × Nat)
  Arguments : List (List Char × Nat)
  Requirement : Option (Nat → Bool)
  Redirect : Option Nat
  Command : Option Nat
  Modifier : Option Nat
  Forks : Bool

/-- A plain node with no data, used as the out-of-range default of the
arena (never reached by well-formed trees). -/
def emptyGNode : GNode :=
  { Kind := .root, Children := [], Literals := [], Arguments := [],
    Requirement := none, Redirect := none, Command := none, Modifier := none, Forks := false }

/-- The dispatcher: the arena of nodes of its command tree.  Index 0 is
the RootCommandNode. -/
structure Dispatcher where
  Nodes : List GNode

/-- The node stored at an index of the arena. -/
def Dispatcher.node (d : Dispatcher) (i : Nat) : GNode := d.Nodes.getD i emptyGNode

/-- CommandNode.Name: empty for the root, the literal for a literal node,
the argument name for an argument node. -/
def NodeName (n : GNode) : List Char :=
  match n.Kind with
  | .root => []
  | .literal lit => lit
  | .argument nm _ => nm

/-- CommandNode.CanUse: true unless a requirement is set, in which case the
requirement applied to the host context decides. -/
def CanUse (n : GNode) (host : Nat) : Bool :=
  match n.Requirement with
  | none => true
  | some req => req host

/-- ParsedArgument from parser.go. -/
structure ParsedArgument where
  Range : StringRange
  Result : Value
deriving DecidableEq

/-- ParsedCommandNode from parser.go, with the node as an arena index. -/
structure ParsedCommandNode where
  Node : Nat
  Range : StringRange
deriving DecidableEq

/-- The fields of one CommandContext of parser.go except the Child link
(the host context.Context is modelled by a number).  During parsing the
engine only ever works on contexts whose Child is nil, so the parse
functions below take this record; the chain type follows. -/
structure CommandContextData where
  Context : Nat
  Arguments : List (List Char × ParsedArgument)
  RootNode : Nat
  Command : Option Nat
  Nodes : List ParsedCommandNode
  Range : StringRange
  Modifier : Option Nat
  Forks : Bool
  Input : List Char
  cursor : Nat
deriving DecidableEq

/-- A CommandContext with its chain of Child contexts: a nonempty linked
list of context data records. -/
inductive CommandContext where
  | leaf (data : CommandContextData)
  | link (data : CommandContextData) (child : CommandContext)
deriving DecidableEq

/-- The data record of the outermost context of a chain. -/
def CommandContext.data : CommandContext → CommandContextData
  | .leaf f => f
  | .link f _ => f

/-- CommandContext.Child: the rest of the chain, if any. -/
def CommandContext.Child : CommandContext → Option CommandContext
  | .leaf _ => none
  | .link _ c => some c

/-- CommandContext.HasNodes: at least one parsed node. -/
def CommandContext.HasNodes (c : CommandContext) : Bool := !c.data.Nodes.isEmpty

/-- CommandContext.CopyFor: the same context with the host context
replaced (copying is identity in the pure model). -/
def CommandContext.CopyFor (h : Nat) : CommandContext → CommandContext
  | .leaf f => .leaf { f with Context := h }
  | .link f c => .link { f with Context := h } c

/-- CommandContext.build from parser.go: rebuild the whole chain carrying
the full input string verbatim (the unexported cursor field is left at
its zero value by the Go struct literal). -/
def CommandContext.build (input : List Char) : CommandContext → CommandContext
  | .leaf f => .leaf { f with Input := input, cursor := 0 }
  | .link f c => .link { f with Input := input, cursor := 0 } (CommandContext.build input c)

/-- Depth of a context chain (number of linked contexts). -/
def CommandContext.depth : CommandContext → Nat
  | .leaf _ => 1
  | .link _ c => 1 + c.depth

/-- CommandContext.withNode from parser.go: record the parsed node, widen
the context range to encompass its range, and take over the node's
modifier and fork flag. -/
def withNode (d : Dispatcher) (nodeId : Nat) (c : CommandContextData) (r : StringRange) :
    CommandContextData :=
  { c with Nodes := c.Nodes ++ [{ Node := nodeId, Range := r }],
           Range := EncompassingRange c.Range r,
           Modifier := (d.node nodeId).Modifier,
           Forks := (d.node nodeId).Forks }

/-- CommandContext.withArgument from parser.go: map assignment of the
parsed argument under its name. -/
def withArgument (name : List Char) (parsed : ParsedArgument) (c : CommandContextData) :
    CommandContextData :=
  { c with Arguments := insertA name parsed c.Arguments }

/-- ParseResults from parser.go: the context chain, the final reader, and
the per-branch error map (an association list keyed by node index). -/
structure ParseResults where
  Context : CommandContext
  Reader : StringReader
  Errs : List (Nat × Err)
deriving DecidableEq

/-- Scan loop of Node.RelevantNodes: the cursor position of the next
argument separator or of the end of the input, scanning from the
reader's cursor without consuming. -/
def scanWordEndAux : Nat → StringReader → Nat
  | 0, r => r.Cursor
  | fuel + 1, r =>
    if r.CanRead && r.Peek ≠ ArgumentSeparator then scanWordEndAux fuel r.Skip
    else r.Cursor

/-- End position of the next whitespace-delimited token. -/
def scanWordEnd (r : StringReader) : Nat := scanWordEndAux r.RemainingLen r

/-- Node.RelevantNodes with the iteration order of the arguments map made
explicit: if the node has literal children and the next token matches
one of them, only that literal is relevant; otherwise the argument
children, in the order of the given iteration of the arguments map. -/
def RelevantNodesIter (d : Dispatcher) (nodeId : Nat) (input : StringReader)
    (argIter : List (List Char × Nat)) : List Nat :=
  let n := d.node nodeId
  if n.Literals ≠ [] then
    let text := sliceL input.String input.Cursor (scanWordEnd input)
    match lookupA text n.Literals with
    | some literal => [literal]
    | none => argIter.map (fun kv => kv.2)
  else argIter.map (fun kv => kv.2)

/-- Node.RelevantNodes from parser.go, iterating the arguments map in the
order its entries are stored in the model. -/
def RelevantNodes (d : Dispatcher) (nodeId : Nat) (input : StringReader) : List Nat :=
  RelevantNodesIter d nodeId input (d.node nodeId).Arguments

/-- LiteralCommandNode.parse from parser.go: the end cursor past the
literal when it matches at the cursor and is followed by a separator or
the end of the input; none (Go: -1) otherwise, with the cursor reset. -/
def literalParseEnd (lit : List Char) (rd : StringReader) : Option Nat × StringReader :=
  let start := rd.Cursor
  if rd.CanReadLen lit.length then
    let stop := start + lit.length
    if sliceL rd.String start stop = lit then
      let rd' : StringReader := { rd with Cursor := stop }
      if !rd'.CanRead || rd'.Peek = ArgumentSeparator then (some stop, rd')
      else (none, { rd' with Cursor := start })
    else (none, rd)
  else (none, rd)

/-- CommandNode.Parse dispatched on the node kind: the root parses as a
no-op; a literal matches its text exactly (IncorrectLiteral otherwise);
an argument delegates to its type's parser and records the parsed
argument and node (parser.go). -/
def childParse (d : Dispatcher) (childId : Nat) (ctx : CommandContextData) (rd : StringReader) :
    Except (Err × StringReader) (CommandContextData × StringReader) :=
  match (d.node childId).Kind with
  | .root => .ok (ctx, rd)
  | .literal lit =>
    let start := rd.Cursor
    match literalParseEnd lit rd with
    | (some stop, rd') =>
      .ok (withNode d childId ctx { Start := (start : Int), End := (stop : Int) }, rd')
    | (none, rd') => .error (.incorrectLiteral lit, rd')
  | .argument nm ty =>
    let start := rd.Cursor
    match ArgTypeParse ty rd with
    | (.error e, rd') => .error (e, rd')
    | (.ok result, rd') =>
      let parsed : ParsedArgument :=
        { Range := { Start := (start : Int), End := (rd'.Cursor : Int) }, Result := result }
      .ok (withNode d childId (withArgument nm parsed ctx) parsed.Range, rd')

/-- The comparator passed to sort.Slice in parseNodes (parser.go),
transcribed branch by branch. -/
def lessResults (a b : ParseResults) : Bool :=
  if !a.Reader.CanRead && b.Reader.CanRead then true
  else if a.Reader.CanRead && !b.Reader.CanRead then false
  else if a.Errs.length = 0 && b.Errs.length ≠ 0 then false
  else if a.Errs.length ≠ 0 && b.Errs.length = 0 then true
  else false

/-- The body of the loop over the relevant children in parseNodes
(parser.go), one child at a time.  The accumulator carries the error
map and the list of potential results; an early Sum.inr is the
immediate return taken on a redirect and passes through the remaining
children untouched.  pn is the recursive parseNodes call.  The fresh
reader cloned from originalReader is originalReader itself in the pure
model, and the rewind of a failed attempt's reader to the original
cursor is implicit: every later attempt reads originalReader. -/
def parseStep (pn : StringReader → Nat → CommandContextData → ParseResults)
    (d : Dispatcher) (originalReader : StringReader) (ctxSoFar : CommandContextData)
    (acc : (List (Nat × Err) × List ParseResults) ⊕ ParseResults) (childId : Nat) :
    (List (Nat × Err) × List ParseResults) ⊕ ParseResults :=
  match acc with
  | .inr r => .inr r
  | .inl (errs, potentials) =>
    if !CanUse (d.node childId) ctxSoFar.Context then .inl (errs, potentials)
    else
      match childParse d childId ctxSoFar originalReader with
      | .error (e, _) => .inl (errs ++ [(childId, e)], potentials)
      | .ok (ctx, rd) =>
        if rd.CanRead && rd.Peek ≠ ArgumentSeparator then
          .inl (errs ++ [(childId, .expectedArgumentSeparator)], potentials)
        else
          let ctx' := { ctx with Command := (d.node childId).Command }
          match (d.node childId).Redirect with
          | some redirect =>
            if rd.CanReadLen 1 then
              let rd' := rd.Skip
              let childCtx : CommandContextData :=
                { Context := ctx'.Context, Arguments := [], RootNode := redirect,
                  Command := none, Nodes := [],
                  Range := { Start := (rd'.Cursor : Int), End := (rd'.Cursor : Int) },
                  Modifier := none, Forks := false, Input := [], cursor := rd'.Cursor }
              let parse := pn rd' redirect childCtx
              .inr { Context := .link ctx' parse.Context, Reader := parse.Reader,
                     Errs := parse.Errs }
            else .inl (errs, potentials ++ [{ Context := .leaf ctx', Reader := rd, Errs := [] }])
          | none =>
            if rd.CanReadLen 2 then
              .inl (errs, potentials ++ [pn rd.Skip childId ctx'])
            else .inl (errs, potentials ++ [{ Context := .leaf ctx', Reader := rd, Errs := [] }])

/-- Dispatcher.parseNodes from parser.go.  The first argument bounds the
recursion depth; every recursive call of the Go function happens after
the separator skip advanced the cursor, so any bound above the length
of the input is never exhausted.  When potentials were gathered, more
than one is sorted by lessResults and the first is returned; otherwise
the so-far context is returned together with the collected errors. -/
def parseNodes (d : Dispatcher) :
    Nat → StringReader → Nat → CommandContextData → ParseResults
  | 0, originalReader, _, ctxSoFar =>
    { Context := .leaf ctxSoFar, Reader := originalReader, Errs := [] }
  | fuel + 1, originalReader, nodeId, ctxSoFar =>
    match (RelevantNodes d nodeId originalReader).foldl
        (parseStep (parseNodes d fuel) d originalReader ctxSoFar) (.inl ([], [])) with
    | .inr r => r
    | .inl (errs, potentials) =>
      if potentials ≠ [] then
        let sorted :=
          if potentials.length > 1 then sortSliceGo lessResults potentials else potentials
        match sorted with
        | best :: _ => best
        | [] => { Context := .leaf ctxSoFar, Reader := originalReader, Errs := errs }
      else { Context := .leaf ctxSoFar, Reader := originalReader, Errs := errs }

/-- Dispatcher.ParseReader from parser.go: parse from the reader's current
cursor with a fresh root context. -/
def ParseReaderGo (d : Dispatcher) (host : Nat) (command : StringReader) : ParseResults :=
  parseNodes d (command.String.length + 1) command 0
    { Context := host, Arguments := [], RootNode := 0, Command := none, Nodes := [],
      Range := { Start := (command.Cursor : Int), End := (command.Cursor : Int) },
      Modifier := none, Forks := false, Input := [], cursor := command.Cursor }

/-- Dispatcher.Parse from parser.go. -/
def ParseGo (d : Dispatcher) (host : Nat) (command : List Char) : ParseResults :=
  ParseReaderGo d host { Cursor := 0, String := command }

/-- Environment giving the behavior of registered commands: Command.Run
returns an error or nil. -/
def CmdEnv : Type := Nat → CommandContext → Option Err

/-- Environment giving the behavior of redirect modifiers:
RedirectModifier.Apply returns a new host context or an error. -/
def ModEnv : Type := Nat → CommandContext → Except Err Nat

/-- One generation of the context walk inside Dispatcher.Execute
(brigodier.go): process the current contexts in order, threading the
forked and foundCommand flags; gather the next generation from redirect
continuations; return early with the first command or modifier error
met while not forked. -/
def stepGen (cmds : CmdEnv) (mods : ModEnv) :
    List CommandContext → Bool → Bool → Except Err (List CommandContext × Bool × Bool)
  | [], forked, found => .ok ([], forked, found)
  | c :: rest, forked, found =>
    match c.Child with
    | some child =>
      let forked' := forked || c.data.Forks
      if child.HasNodes then
        match c.data.Modifier with
        | none =>
          (stepGen cmds mods rest forked' true).map
            (fun r => (child.CopyFor c.data.Context :: r.1, r.2))
        | some m =>
          match mods m c with
          | .error e =>
            if !forked' then .error e else stepGen cmds mods rest forked' true
          | .ok result =>
            (stepGen cmds mods rest forked' true).map
              (fun r => (child.CopyFor result :: r.1, r.2))
      else stepGen cmds mods rest forked' found
    | none =>
      match c.data.Command with
      | some k =>
        match cmds k c with
        | some e => if !forked then .error e else stepGen cmds mods rest forked true
        | none => stepGen cmds mods rest forked true
      | none => stepGen cmds mods rest forked found

/-- Total depth of a generation of context chains. -/
def sumDepth (cs : List CommandContext) : Nat := (cs.map CommandContext.depth).sum

/-- The generation loop of Dispatcher.Execute: run stepGen on each
generation until it empties, then report UnknownCommand when no
command was ever found.  The bound counts generations; every child
context enqueued for the next generation is one link shorter than its
parent, so a bound above the initial total depth is never exhausted
(walk_fuel_sufficient below). -/
def walk (cmds : CmdEnv) (mods : ModEnv) :
    Nat → List CommandContext → Bool → Bool → Option Err
  | 0, _, _, _ => none
  | fuel + 1, cs, forked, found =>
    match cs with
    | [] => if found then none else some .unknownCommand
    | c :: rest =>
      match stepGen cmds mods (c :: rest) forked found with
      | .error e => some e
      | .ok (next, forked', found') => walk cmds mods fuel next forked' found'

/-- Dispatcher.Execute from brigodier.go.  When the reader still has
input: the single branch error if exactly one branch failed, otherwise
UnknownCommand when nothing was parsed (empty context range) and
UnknownArgument when something was.  Otherwise build the chain with the
full input and walk it. -/
def Execute (cmds : CmdEnv) (mods : ModEnv) (parse : ParseResults) : Option Err :=
  if parse.Reader.CanRead then
    if parse.Errs.length = 1 then
      some ((parse.Errs.headD (0, .unknownCommand)).2)
    else if parse.Context.data.Range.IsEmpty then some .unknownCommand
    else some .unknownArgument
  else
    let original := parse.Context.build parse.Reader.String
    walk cmds mods (original.depth + 1) [original] false false

/-- Dispatcher.addPaths from brigodier.go: record the path to the current
node, then recurse into every child, extending the parents.  The bound
limits the recursion depth (the Go function assumes the child graph is
a tree; any bound above the tree height is never exhausted). -/
def addPaths (d : Dispatcher) : Nat → Nat → List Nat → List (List Nat)
  | 0, _, _ => []
  | fuel + 1, nodeId, parents =>
    let current := parents ++ [nodeId]
    current :: ((d.node nodeId).Children.map (fun kc => addPaths d fuel kc.2 current)).flatten

/-- Dispatcher.Path from brigodier.go: among all recorded paths, take the
first ending at the target and return the names of its nodes, the root
excluded; none when the target is not on the tree. -/
def Path (d : Dispatcher) (fuel : Nat) (target : Nat) : Option (List (List Char)) :=
  match (addPaths d fuel 0 []).find? (fun l => l.getLast? = some target) with
  | some l => some ((l.filter (fun i => i ≠ 0)).map (fun i => NodeName (d.node i)))
  | none => none

/-- Dispatcher.FindNode from brigodier.go: follow the names from the
current node through the children maps; nil when a step is missing. -/
def FindNode (d : Dispatcher) : List (List Char) → Nat → Option Nat
  | [], current => some current
  | name :: rest, current =>
    match lookupA name (d.node current).Children with
    | some next => FindNode d rest next
    | none => none

/-- A chain of child edges from a node: each step goes to a child of the
previous node. -/
def chainFrom (d : Dispatcher) : Nat → List Nat → Bool
  | _, [] => true
  | i, c :: cs => (d.node i).Children.any (fun kc => kc.2 == c) && chainFrom d c cs

/-- Well-formedness of a dispatcher tree, as established by the AddChild
construction of brigodier.go: every child entry is stored under the
child's own name (putChild uses node.Name()), keys within a node are
distinct (they are keys of one Go map), child indices are in range,
and the root is never a child (AddChild rejects RootCommandNode). -/
def wfDispatcher (d : Dispatcher) : Bool :=
  (List.range d.Nodes.length).all (fun i =>
    keysNodup (d.node i).Children &&
    (d.node i).Children.all (fun kc =>
      kc.2 < d.Nodes.length && kc.2 ≠ 0 && kc.1 = NodeName (d.node kc.2)))

/-- A fresh context data record rooted at the given node with all other
fields at their zero values (used for concrete instances below). -/
def zeroFrame : CommandContextData :=
  { Context := 0, Arguments := [], RootNode := 0, Command := none, Nodes := [],
    Range := { Start := 0, End := 0 }, Modifier := none, Forks := false,
    Input := [], cursor := 0 }

/-- A stub recursion function for evaluating one parseStep in isolation. -/
def pnStub : StringReader → Nat → CommandContextData → ParseResults :=
  fun rd _ _ => { Context := .leaf zeroFrame, Reader := rd, Errs := [] }

/-- Node constructor helper for the concrete trees below. -/
def mkNode (k : NodeKind) (children literals arguments : List (List Char × Nat))
    (redirect command : Option Nat) : GNode :=
  { Kind := k, Children := children, Literals := literals, Arguments := arguments,
    Requirement := none, Redirect := redirect, Command := command, Modifier := none,
    Forks := false }

/-- Concrete tree for the best-branch selection scenario: the literal a
has two argument children, x a greedy string and y a single word; y has
a literal child b that redirects to node 5, whose only child is the
integer argument t. -/
def demoDispatcher : Dispatcher :=
  { Nodes := [
      mkNode .root [(['a'], 1)] [(['a'], 1)] [] none none,
      mkNode (.literal ['a']) [(['x'], 2), (['y'], 3)] [] [(['x'], 2), (['y'], 3)] none none,
      mkNode (.argument ['x'] (.str .GreedyPhrase)) [] [] [] none none,
      mkNode (.argument ['y'] (.str .SingleWord)) [(['b'], 4)] [(['b'], 4)] [] none none,
      mkNode (.literal ['b']) [] [] [] (some 5) none,
      mkNode (.literal ['T']) [(['t'], 6)] [] [(['t'], 6)] none none,
      mkNode (.argument ['t'] IntArgDefault) [] [] [] none none] }

/-- The input of the best-branch scenario: a, space, w, space, b, space. -/
def demoInput : List Char := ['a', ' ', 'w', ' ', 'b', ' ']

/-- Dispatcher used by the C7 fixture: one integer argument child. -/
def intArgDispatcher : Dispatcher :=
  { Nodes := [emptyGNode, mkNode (.argument ['t'] IntArgDefault) [] [] [] none none] }

/-- A node with two argument children (insertion order first a, then b),
used for the map-iteration-order counterexample. -/
def twoArgsDispatcher : Dispatcher :=
  { Nodes := [
      mkNode .root [(['a'], 1), (['b'], 2)] [] [(['a'], 1), (['b'], 2)] none none,
      mkNode (.argument ['a'] IntArgDefault) [] [] [] none none,
      mkNode (.argument ['b'] IntArgDefault) [] [] [] none none] }

/-- Small tree for the path round-trip witness: root, then the literal
foo, then under it the literal bar. -/
def pathDispatcher : Dispatcher :=
  { Nodes := [
      mkNode .root [(['f', 'o', 'o'], 1)] [(['f', 'o', 'o'], 1)] [] none none,
      mkNode (.literal ['f', 'o', 'o']) [(['b', 'a', 'r'], 2)] [(['b', 'a', 'r'], 2)] [] none none,
      mkNode (.literal ['b', 'a', 'r']) [] [] [] none none] }

/-! Theorems.  Helper lemmas come first, then one theorem per claim (with
its witness or counterexample where required). -/

/-- CanRead spelled out as an arithmetic fact about the cursor. -/
theorem canRead_iff (r : StringReader) : r.CanRead = true ↔ r.Cursor < r.String.length := by
  simp only [StringReader.CanRead, StringReader.CanReadLen, decide_eq_true_eq]
  omega

/-- CanRead is false exactly when the cursor reached the end. -/
theorem canRead_false_iff (r : StringReader) :
    r.CanRead = false ↔ r.String.length ≤ r.Cursor := by
  rw [← Bool.not_eq_true, canRead_iff]; omega

/-- The loop of ReadStringUntil can only report a missing end quote with
the reader at the end of the input (bound coupled to the cursor as in
the wrapper). -/
theorem readStringUntilAux_endOfQuote (t : Char) :
    ∀ (fuel : Nat) (r : StringReader) (res : List Char) (esc : Bool) (r' : StringReader),
      fuel = r.RemainingLen →
      ReadStringUntilAux t fuel r res esc = (.error .expectedEndOfQuote, r') →
      r'.CanRead = false := by
  intro fuel
  induction fuel with
  | zero =>
    intro r res esc r' hinv h
    simp only [ReadStringUntilAux, Prod.mk.injEq] at h
    rw [← h.2, canRead_false_iff]
    simp only [StringReader.RemainingLen] at hinv
    omega
  | succ f ih =>
    intro r res esc r' hinv h
    simp only [ReadStringUntilAux] at h
    split at h
    · -- CanRead
      rename_i hc
      have hc' := (canRead_iff r).mp hc
      have hskip : f = r.Skip.RemainingLen := by
        simp only [StringReader.RemainingLen, StringReader.Skip] at hinv ⊢
        omega
      split at h
      · -- escaped
        split at h
        · exact ih _ _ _ _ hskip h
        · simp [Prod.mk.injEq] at h
      · split at h
        · -- escape character read
          exact ih _ _ _ _ hskip h
        · split at h
          · simp [Prod.mk.injEq] at h
          · exact ih _ _ _ _ hskip h
    · rename_i hc
      rw [Bool.not_eq_true] at hc
      simp only [Prod.mk.injEq] at h
      rw [← h.2]
      exact hc

/-- The loop of ReadStringUntil can only report an invalid escape for a
character that is neither the terminator nor the escape character, with
the final reader's cursor pointing at that character. -/
theorem readStringUntilAux_invalidEscape (t c : Char) :
    ∀ (fuel : Nat) (r : StringReader) (res : List Char) (esc : Bool) (r' : StringReader),
      ReadStringUntilAux t fuel r res esc = (.error (.invalidEscape c), r') →
      c ≠ t ∧ c ≠ EscapeChar ∧ r'.Peek = c := by
  intro fuel
  induction fuel with
  | zero => intro r res esc r' h; simp [ReadStringUntilAux, Prod.mk.injEq] at h
  | succ f ih =>
    intro r res esc r' h
    simp only [ReadStringUntilAux] at h
    split at h
    · split at h
      · -- escaped
        split at h
        · exact ih _ _ _ _ h
        · rename_i hct
          simp only [Prod.mk.injEq, Except.error.injEq, Err.invalidEscape.injEq] at h
          obtain ⟨hcc, hr'⟩ := h
          rw [Bool.or_eq_true, not_or] at hct
          simp only [decide_eq_true_eq] at hct
          refine ⟨?_, ?_, ?_⟩
          · rw [← hcc]; exact hct.1
          · rw [← hcc]; exact hct.2
          · rw [← hr', ← hcc]
            simp only [StringReader.Peek, StringReader.Skip, Nat.add_sub_cancel]
      · split at h
        · exact ih _ _ _ _ h
        · split at h
          · simp [Prod.mk.injEq] at h
          · exact ih _ _ _ _ h
    · simp [Prod.mk.injEq] at h

/-- C5 counterexample: on an exhausted reader the opening quote is missing
at the cursor, yet ReadQuotedString succeeds with the empty string
instead of failing with ExpectedStartOfQuote (the repo's own test
expects exactly this success). -/
theorem readQuotedString_eof_no_error :
    ReadQuotedString { Cursor := 0, String := [] } =
      (.ok [], { Cursor := 0, String := [] }) ∧
    (ReadQuotedString { Cursor := 0, String := [] }).1 ≠ .error .expectedStartOfQuote := by
  constructor
  · rfl
  · intro h
    simp [ReadQuotedString, StringReader.CanRead, StringReader.CanReadLen] at h

/-- C5 (amended): when the reader has at least one unread character,
ReadQuotedString fails with ExpectedStartOfQuote exactly when that
character is not a quote; on an exhausted reader it instead returns the
empty string with no error.  An ExpectedEndOfQuote failure leaves the
reader at the end of the input, and an InvalidEscape failure reports a
character other than the terminator quote and the backslash with the
cursor rewound by one so that it points at that character. -/
theorem readQuotedString_error_spec (r : StringReader) (c : Char) :
    (r.CanRead = false → ReadQuotedString r = (.ok [], r)) ∧
    (r.CanRead = true → IsQuotedStringStart r.Peek = false →
      ReadQuotedString r = (.error .expectedStartOfQuote, r)) ∧
    ((ReadQuotedString r).1 = .error .expectedEndOfQuote →
      ((ReadQuotedString r).2).CanRead = false) ∧
    ((ReadQuotedString r).1 = .error (.invalidEscape c) →
      c ≠ r.Peek ∧ c ≠ EscapeChar ∧ ((ReadQuotedString r).2).Peek = c) := by
  refine ⟨?_, ?_, ?_, ?_⟩
  · intro h; simp [ReadQuotedString, h]
  · intro h1 h2; simp [ReadQuotedString, h1, h2]
  · intro h
    by_cases hc : r.CanRead = true
    · by_cases hq : IsQuotedStringStart r.Peek = true
      · simp only [ReadQuotedString, ReadStringUntil, hc, hq, Bool.not_true,
          Bool.false_eq_true, if_false, if_true] at h ⊢
        cases hx : ReadStringUntilAux r.Peek r.Skip.RemainingLen r.Skip [] false with
        | mk e r2 =>
          rw [hx] at h
          simp only at h ⊢
          exact readStringUntilAux_endOfQuote _ _ _ _ _ _ rfl (hx.trans (by rw [h]))
      · have hq' : IsQuotedStringStart r.Peek = false := by
          cases hh : IsQuotedStringStart r.Peek; rfl; exact absurd hh hq
        simp [ReadQuotedString, hc, hq'] at h
    · have hc' : r.CanRead = false := by
        cases hh : r.CanRead; rfl; exact absurd hh hc
      simp [ReadQuotedString, hc'] at h
  · intro h
    by_cases hc : r.CanRead = true
    · by_cases hq : IsQuotedStringStart r.Peek = true
      · simp only [ReadQuotedString, ReadStringUntil, hc, hq, Bool.not_true,
          Bool.false_eq_true, if_false, if_true] at h ⊢
        cases hx : ReadStringUntilAux r.Peek r.Skip.RemainingLen r.Skip [] false with
        | mk e r2 =>
          rw [hx] at h
          simp only at h ⊢
          exact readStringUntilAux_invalidEscape _ _ _ _ _ _ _ (hx.trans (by rw [h]))
      · have hq' : IsQuotedStringStart r.Peek = false := by
          cases hh : IsQuotedStringStart r.Peek; rfl; exact absurd hh hq
        simp [ReadQuotedString, hc, hq'] at h
    · have hc' : r.CanRead = false := by
        cases hh : r.CanRead; rfl; exact absurd hh hc
      simp [ReadQuotedString, hc'] at h

/-- Witness for readQuotedString_error_spec at concrete readers: the
missing-opener case at an input without a quote, instantiated through
the theorem itself. -/
theorem readQuotedString_error_spec_witness :
    ReadQuotedString { Cursor := 0, String := ['x'] } =
      (.error .expectedStartOfQuote, { Cursor := 0, String := ['x'] }) :=
  (readQuotedString_error_spec { Cursor := 0, String := ['x'] } 'n').2.1
    (by decide) (by decide)

/-- C10: SuggestionsBuilder.Suggest is a no-op when the text equals the
builder's remaining input; in particular nothing is appended to the
result. -/
theorem suggest_remaining_noop (b : SuggestionsBuilder) (text : List Char)
    (h : text = b.Remaining) :
    b.Suggest text = b ∧ (b.Suggest text).Result = b.Result := by
  have : b.Suggest text = b := by
    simp [SuggestionsBuilder.Suggest, h]
  exact ⟨this, by rw [this]⟩

/-- Witness for suggest_remaining_noop: completing a fully typed word adds
no suggestion. -/
theorem suggest_remaining_noop_witness :
    SuggestionsBuilder.Suggest
        { Input := ['f', 'o', 'o'], InputLowerCase := ['f', 'o', 'o'], Start := 0,
          Remaining := ['f', 'o', 'o'], RemainingLowerCase := ['f', 'o', 'o'], Result := [] }
        ['f', 'o', 'o'] =
      { Input := ['f', 'o', 'o'], InputLowerCase := ['f', 'o', 'o'], Start := 0,
        Remaining := ['f', 'o', 'o'], RemainingLowerCase := ['f', 'o', 'o'], Result := [] } :=
  (suggest_remaining_noop _ _ (by decide)).1

/-- CreateSuggestion of a single suggestion whose range fits the int32
sentinels: the overall range is the suggestion's own range and the
suggestion is returned unchanged. -/
theorem createSuggestion_singleton (cmd : List Char) (s : Suggestion)
    (h1 : s.Range.Start ≤ 2147483647) (h2 : -2147483648 ≤ s.Range.End) :
    CreateSuggestion cmd [s] = { Range := s.Range, Suggestions := [s] } := by
  have hmin : min s.Range.Start 2147483647 = s.Range.Start := min_eq_left h1
  have hmax : max s.Range.End (-2147483648) = s.Range.End := max_eq_left h2
  simp [CreateSuggestion, dedupExpand, Suggestion.Expand, sortSliceGo, sortSliceGoAux,
    insertGoRev, hmin, hmax]

/-- C9 counterexample: with an empty remaining input, the empty string is
a prefix of false, yet the Bool suggester does not propose false (its
two prefix tests are chained with else-if); only true is proposed. -/
theorem boolSuggestions_empty_only_true :
    HasPrefixGo falseChars [] = true ∧
    falseChars ∉
      (boolSuggestionsFn
          { Input := [], InputLowerCase := [], Start := 0, Remaining := [],
            RemainingLowerCase := [], Result := [] }).Suggestions.map Suggestion.Text ∧
    (boolSuggestionsFn
        { Input := [], InputLowerCase := [], Start := 0, Remaining := [],
          RemainingLowerCase := [], Result := [] }).Suggestions.map Suggestion.Text =
      [trueChars] := by
  decide

/-- C9 (amended): on a fresh builder, true is proposed exactly when the
lowercase remaining input is a prefix of true and true is not already
the fully typed remaining input; false is proposed exactly when the
remaining input is not a prefix of true (the else-if chain), is a
prefix of false, and false is not already fully typed.  In particular
an empty remaining input proposes only true. -/
theorem boolSuggestions_amended (b : SuggestionsBuilder)
    (hres : b.Result = []) (hstart : b.Start ≤ 2147483647) :
    (trueChars ∈ (boolSuggestionsFn b).Suggestions.map Suggestion.Text ↔
      (HasPrefixGo trueChars b.RemainingLowerCase = true ∧ b.Remaining ≠ trueChars)) ∧
    (falseChars ∈ (boolSuggestionsFn b).Suggestions.map Suggestion.Text ↔
      (HasPrefixGo trueChars b.RemainingLowerCase = false ∧
       HasPrefixGo falseChars b.RemainingLowerCase = true ∧ b.Remaining ≠ falseChars)) := by
  have hcast : ((b.Start : Int)) ≤ 2147483647 := by exact_mod_cast hstart
  have hend : (-2147483648 : Int) ≤ (b.Input.length : Int) := by
    have : (0 : Int) ≤ (b.Input.length : Int) := Int.ofNat_nonneg _
    omega
  by_cases ht : HasPrefixGo trueChars b.RemainingLowerCase = true
  · by_cases hrem : b.Remaining = trueChars
    · have hb : boolSuggestionsFn b = emptySuggestions := by
        simp [boolSuggestionsFn, ht, SuggestionsBuilder.Suggest, hrem,
          SuggestionsBuilder.Build, hres, CreateSuggestion]
      rw [hb]
      simp [emptySuggestions, ht, hrem]
    · have hb : boolSuggestionsFn b =
          { Range := { Start := (b.Start : Int), End := (b.Input.length : Int) },
            Suggestions := [{ Range := { Start := (b.Start : Int),
                                         End := (b.Input.length : Int) },
                              Text := trueChars, Tooltip := none }] } := by
        have hsug : b.Suggest trueChars =
            { b with Result := [{ Range := { Start := (b.Start : Int),
                                             End := (b.Input.length : Int) },
                                  Text := trueChars, Tooltip := none }] } := by
          simp [SuggestionsBuilder.Suggest, hres, Ne.symm hrem]
        simp only [boolSuggestionsFn, ht, if_true, hsug, SuggestionsBuilder.Build]
        exact createSuggestion_singleton _ _ hcast hend
      rw [hb]
      simp only [List.map_cons, List.map_nil, List.mem_singleton]
      constructor
      · simp [ht, hrem]
      · constructor
        · intro hmem
          exact absurd hmem (by decide)
        · intro hcond
          rw [hcond.1] at ht
          simp at ht
  · have ht' : HasPrefixGo trueChars b.RemainingLowerCase = false := by
      cases hh : HasPrefixGo trueChars b.RemainingLowerCase; rfl; exact absurd hh ht
    by_cases hf : HasPrefixGo falseChars b.RemainingLowerCase = true
    · by_cases hrem : b.Remaining = falseChars
      · have hb : boolSuggestionsFn b = emptySuggestions := by
          simp [boolSuggestionsFn, ht', hf, SuggestionsBuilder.Suggest, hrem,
            SuggestionsBuilder.Build, hres, CreateSuggestion]
        rw [hb]
        simp [emptySuggestions, ht', hf, hrem]
      · have hb : boolSuggestionsFn b =
            { Range := { Start := (b.Start : Int), End := (b.Input.length : Int) },
              Suggestions := [{ Range := { Start := (b.Start : Int),
                                           End := (b.Input.length : Int) },
                                Text := falseChars, Tooltip := none }] } := by
          have hsug : b.Suggest falseChars =
              { b with Result := [{ Range := { Start := (b.Start : Int),
                                               End := (b.Input.length : Int) },
                                    Text := falseChars, Tooltip := none }] } := by
            simp [SuggestionsBuilder.Suggest, hres]
            intro hcontra
            exact absurd hcontra.symm hrem
          simp only [boolSuggestionsFn, ht', Bool.false_eq_true, if_false, hf, if_true,
            hsug, SuggestionsBuilder.Build]
          exact createSuggestion_singleton _ _ hcast hend
        rw [hb]
        simp only [List.map_cons, List.map_nil, List.mem_singleton]
        constructor
        · constructor
          · intro hmem
            exact absurd hmem (by decide)
          · intro hcond
            rw [ht'] at hcond
            exact absurd hcond.1 (by simp)
        · simp [ht', hf, hrem]
    · have hf' : HasPrefixGo falseChars b.RemainingLowerCase = false := by
        cases hh : HasPrefixGo falseChars b.RemainingLowerCase; rfl; exact absurd hh hf
      have hb : boolSuggestionsFn b = emptySuggestions := by
        simp [boolSuggestionsFn, ht', hf', SuggestionsBuilder.Build, hres, CreateSuggestion]
      rw [hb]
      simp [emptySuggestions, ht', hf']

/-- Witness for boolSuggestions_amended at a builder whose remaining input
is the letter f: only false is proposed. -/
theorem boolSuggestions_amended_witness :
    (trueChars ∈
        (boolSuggestionsFn
            { Input := ['f'], InputLowerCase := ['f'], Start := 0, Remaining := ['f'],
              RemainingLowerCase := ['f'], Result := [] }).Suggestions.map Suggestion.Text ↔
      (HasPrefixGo trueChars ['f'] = true ∧ ['f'] ≠ trueChars)) ∧
    (falseChars ∈
        (boolSuggestionsFn
            { Input := ['f'], InputLowerCase := ['f'], Start := 0, Remaining := ['f'],
              RemainingLowerCase := ['f'], Result := [] }).Suggestions.map Suggestion.Text ↔
      (HasPrefixGo trueChars ['f'] = false ∧ HasPrefixGo falseChars ['f'] = true ∧
       ['f'] ≠ falseChars)) :=
  boolSuggestions_amended
    { Input := ['f'], InputLowerCase := ['f'], Start := 0, Remaining := ['f'],
      RemainingLowerCase := ['f'], Result := [] } rfl (by decide)

/-- C8: evaluation of the merge pipeline at concrete inputs.  First: the
texts are spliced out to the encompassing span but each returned
suggestion keeps its original narrow range, and the result is not
sorted case-insensitively (ay stays after xb, since the sort's less
function is the EqualFold equality test).  Second: with two suggestions
sharing a text, the overall range is computed before deduplication, so
it exceeds the union of the ranges of the returned suggestions. -/
theorem mergeSuggestions_keeps_ranges_and_order :
    MergeSuggestions ['a', 'b']
        [{ Range := { Start := 0, End := 1 },
           Suggestions := [{ Range := { Start := 0, End := 1 }, Text := ['x'],
                             Tooltip := none }] },
         { Range := { Start := 1, End := 2 },
           Suggestions := [{ Range := { Start := 1, End := 2 }, Text := ['y'],
                             Tooltip := none }] }] =
      { Range := { Start := 0, End := 2 },
        Suggestions := [{ Range := { Start := 0, End := 1 }, Text := ['x', 'b'],
                          Tooltip := none },
                        { Range := { Start := 1, End := 2 }, Text := ['a', 'y'],
                          Tooltip := none }] } ∧
    CreateSuggestion ['a', 'b', 'c']
        [{ Range := { Start := 0, End := 1 }, Text := ['x'], Tooltip := none },
         { Range := { Start := 2, End := 3 }, Text := ['x'], Tooltip := none }] =
      { Range := { Start := 0, End := 3 },
        Suggestions := [{ Range := { Start := 0, End := 1 }, Text := ['x', 'b', 'c'],
                          Tooltip := none }] } := by
  constructor
  · rfl
  · rfl

/-- C2: whenever the reader of a ParseResults still has unread input,
Execute returns an error without running any command (the command and
modifier environments are arbitrary and unused): the single recorded
branch error if exactly one branch failed, UnknownCommand if the
context range is empty, and UnknownArgument otherwise. -/
theorem execute_unconsumed_input_error (cmds : CmdEnv) (mods : ModEnv)
    (parse : ParseResults) (h : parse.Reader.CanRead = true) :
    (parse.Errs.length = 1 →
      Execute cmds mods parse = some ((parse.Errs.headD (0, .unknownCommand)).2)) ∧
    (parse.Errs.length ≠ 1 → parse.Context.data.Range.IsEmpty = true →
      Execute cmds mods parse = some .unknownCommand) ∧
    (parse.Errs.length ≠ 1 → parse.Context.data.Range.IsEmpty = false →
      Execute cmds mods parse = some .unknownArgument) := by
  refine ⟨?_, ?_, ?_⟩
  · intro h1
    simp [Execute, h, h1]
  · intro h1 h2
    simp [Execute, h, h1, h2]
  · intro h1 h2
    simp [Execute, h, h1, h2]

/-- Witness for execute_unconsumed_input_error: a single failed branch
reports its own error. -/
theorem execute_unconsumed_input_error_witness :
    Execute (fun _ _ => none) (fun _ _ => .ok 0)
        { Context := .leaf
            { Context := 0, Arguments := [], RootNode := 0, Command := none, Nodes := [],
              Range := { Start := 0, End := 0 }, Modifier := none, Forks := false,
              Input := [], cursor := 0 },
          Reader := { Cursor := 0, String := ['x'] },
          Errs := [(3, .custom 7)] } =
      some (.custom 7) :=
  (execute_unconsumed_input_error (fun _ _ => none) (fun _ _ => .ok 0) _ (by decide)).1 rfl

/-- C3: behavior of the execution walk of Dispatcher.Execute.  A command
or modifier error met while not forked aborts the walk and is returned
(whatever contexts remain); once the accumulated fork flag is set the
error is swallowed and the generation continues with the remaining
contexts; an emptied frontier yields UnknownCommand when no command
was ever found and success otherwise; and Execute enters the walk
exactly when the input was fully consumed. -/
theorem execute_walk_fork_semantics (cmds : CmdEnv) (mods : ModEnv)
    (c : CommandContext) (rest : List CommandContext) (fuel : Nat)
    (fk fd : Bool) (e : Err) (k m : Nat) (ch : CommandContext) (parse : ParseResults) :
    (c.Child = none → c.data.Command = some k → cmds k c = some e →
      walk cmds mods (fuel + 1) (c :: rest) false fd = some e) ∧
    (c.Child = none → c.data.Command = some k → cmds k c = some e →
      stepGen cmds mods (c :: rest) true fd = stepGen cmds mods rest true true) ∧
    (c.Child = some ch → ch.HasNodes = true → c.data.Modifier = some m →
      mods m c = .error e → (fk || c.data.Forks) = false →
      walk cmds mods (fuel + 1) (c :: rest) fk fd = some e) ∧
    (c.Child = some ch → ch.HasNodes = true → c.data.Modifier = some m →
      mods m c = .error e → (fk || c.data.Forks) = true →
      stepGen cmds mods (c :: rest) fk fd = stepGen cmds mods rest true true) ∧
    (walk cmds mods (fuel + 1) [] fk fd = if fd then none else some .unknownCommand) ∧
    (parse.Reader.CanRead = false →
      Execute cmds mods parse =
        walk cmds mods ((parse.Context.build parse.Reader.String).depth + 1)
          [parse.Context.build parse.Reader.String] false false) := by
  refine ⟨?_, ?_, ?_, ?_, ?_, ?_⟩
  · intro hchild hcmd herr
    cases c with
    | leaf f =>
      simp only [CommandContext.data] at hcmd
      have hstep : stepGen cmds mods (.leaf f :: rest) false fd = .error e := by
        simp [stepGen, CommandContext.Child, CommandContext.data, hcmd, herr]
      simp [walk, hstep]
    | link f ch' => simp [CommandContext.Child] at hchild
  · intro hchild hcmd herr
    cases c with
    | leaf f =>
      simp only [CommandContext.data] at hcmd
      simp [stepGen, CommandContext.Child, CommandContext.data, hcmd, herr]
    | link f ch' => simp [CommandContext.Child] at hchild
  · intro hchild hnodes hmod herr hfork
    cases c with
    | leaf f => simp [CommandContext.Child] at hchild
    | link f ch' =>
      simp only [CommandContext.Child, Option.some.injEq] at hchild
      subst hchild
      simp only [CommandContext.data] at hmod hfork
      have hfk : fk = false := by
        cases hfk' : fk
        · rfl
        · rw [hfk'] at hfork; simp at hfork
      have hforks : f.Forks = false := by
        cases hforks' : f.Forks
        · rfl
        · rw [hforks'] at hfork; simp at hfork
      subst hfk
      have hstep : stepGen cmds mods (.link f ch' :: rest) false fd = .error e := by
        simp [stepGen, CommandContext.Child, CommandContext.data, hnodes, hmod, herr, hforks]
      simp [walk, hstep]
  · intro hchild hnodes hmod herr hfork
    cases c with
    | leaf f => simp [CommandContext.Child] at hchild
    | link f ch' =>
      simp only [CommandContext.Child, Option.some.injEq] at hchild
      subst hchild
      simp only [CommandContext.data] at hmod hfork
      simp [stepGen, CommandContext.Child, CommandContext.data, hnodes, hmod, herr, hfork]
  · simp [walk]
  · intro h
    simp [Execute, h]

/-- Witness for execute_walk_fork_semantics: a failing command on a
single-context frontier aborts the unforked walk with its error. -/
theorem execute_walk_fork_semantics_witness :
    walk (fun _ _ => some (.custom 1)) (fun _ _ => .ok 0) 1
        [.leaf { Context := 0, Arguments := [], RootNode := 0, Command := some 0,
                 Nodes := [], Range := { Start := 0, End := 0 }, Modifier := none,
                 Forks := false, Input := [], cursor := 0 }] false false =
      some (.custom 1) ∧
    walk (fun _ _ => some (.custom 1)) (fun _ _ => .ok 0) 1 [] false true = none :=
  ⟨(execute_walk_fork_semantics (fun _ _ => some (.custom 1)) (fun _ _ => .ok 0)
      (.leaf { Context := 0, Arguments := [], RootNode := 0, Command := some 0,
               Nodes := [], Range := { Start := 0, End := 0 }, Modifier := none,
               Forks := false, Input := [], cursor := 0 })
      [] 0 false false (.custom 1) 0 0
      (.leaf { Context := 0, Arguments := [], RootNode := 0, Command := some 0,
               Nodes := [], Range := { Start := 0, End := 0 }, Modifier := none,
               Forks := false, Input := [], cursor := 0 })
      { Context := .leaf
          { Context := 0, Arguments := [], RootNode := 0, Command := some 0, Nodes := [],
            Range := { Start := 0, End := 0 }, Modifier := none, Forks := false,
            Input := [], cursor := 0 },
        Reader := { Cursor := 0, String := [] }, Errs := [] }).1 rfl rfl rfl,
   by
    have h := (execute_walk_fork_semantics (fun _ _ => some (.custom 1)) (fun _ _ => .ok 0)
      (.leaf { Context := 0, Arguments := [], RootNode := 0, Command := some 0,
               Nodes := [], Range := { Start := 0, End := 0 }, Modifier := none,
               Forks := false, Input := [], cursor := 0 })
      [] 0 false true (.custom 1) 0 0
      (.leaf { Context := 0, Arguments := [], RootNode := 0, Command := some 0,
               Nodes := [], Range := { Start := 0, End := 0 }, Modifier := none,
               Forks := false, Input := [], cursor := 0 })
      { Context := .leaf
          { Context := 0, Arguments := [], RootNode := 0, Command := some 0, Nodes := [],
            Range := { Start := 0, End := 0 }, Modifier := none, Forks := false,
            Input := [], cursor := 0 },
        Reader := { Cursor := 0, String := [] }, Errs := [] }).2.2.2.2.1
    simpa using h⟩

/-- The unquoted-string loop never moves the cursor backwards and keeps
the input unchanged. -/
theorem readUnquotedStringAux_mono :
    ∀ (fuel : Nat) (r : StringReader),
      r.Cursor ≤ (ReadUnquotedStringAux fuel r).Cursor ∧
      (ReadUnquotedStringAux fuel r).String = r.String := by
  intro fuel
  induction fuel with
  | zero => intro r; exact ⟨Nat.le_refl _, rfl⟩
  | succ f ih =>
    intro r
    simp only [ReadUnquotedStringAux]
    split
    · refine ⟨Nat.le_trans (Nat.le_succ _) (ih r.Skip).1, (ih r.Skip).2⟩
    · exact ⟨Nat.le_refl _, rfl⟩

/-- The number-scan loop never moves the cursor backwards and keeps the
input unchanged. -/
theorem readNumberAux_mono :
    ∀ (fuel : Nat) (r : StringReader),
      r.Cursor ≤ (ReadNumberAux fuel r).Cursor ∧
      (ReadNumberAux fuel r).String = r.String := by
  intro fuel
  induction fuel with
  | zero => intro r; exact ⟨Nat.le_refl _, rfl⟩
  | succ f ih =>
    intro r
    simp only [ReadNumberAux]
    split
    · refine ⟨Nat.le_trans (Nat.le_succ _) (ih r.Skip).1, (ih r.Skip).2⟩
    · exact ⟨Nat.le_refl _, rfl⟩

/-- A successful quoted scan never moves the cursor backwards. -/
theorem readStringUntilAux_ok_mono (t : Char) :
    ∀ (fuel : Nat) (r : StringReader) (res s : List Char) (esc : Bool) (r' : StringReader),
      ReadStringUntilAux t fuel r res esc = (.ok s, r') → r.Cursor ≤ r'.Cursor := by
  intro fuel
  induction fuel with
  | zero => intro r res s esc r' h; simp [ReadStringUntilAux, Prod.mk.injEq] at h
  | succ f ih =>
    intro r res s esc r' h
    simp only [ReadStringUntilAux] at h
    split at h
    · split at h
      · split at h
        · exact Nat.le_trans (Nat.le_succ _) (ih _ _ _ _ _ h)
        · simp [Prod.mk.injEq] at h
      · split at h
        · exact Nat.le_trans (Nat.le_succ _) (ih _ _ _ _ _ h)
        · split at h
          · simp only [Prod.mk.injEq] at h
            rw [← h.2]
            exact Nat.le_succ _
          · exact Nat.le_trans (Nat.le_succ _) (ih _ _ _ _ _ h)
    · simp [Prod.mk.injEq] at h

/-- A successful ReadString never moves the cursor backwards. -/
theorem readString_ok_mono (r : StringReader) (s : List Char) (r' : StringReader)
    (h : ReadString r = (.ok s, r')) : r.Cursor ≤ r'.Cursor := by
  simp only [ReadString] at h
  split at h
  · simp only [Prod.mk.injEq] at h
    rw [← h.2]
  · split at h
    · exact Nat.le_trans (Nat.le_succ _)
        (readStringUntilAux_ok_mono _ _ _ _ _ _ _ h)
    · simp only [ReadUnquotedString, Prod.mk.injEq] at h
      rw [← h.2]
      exact (readUnquotedStringAux_mono _ _).1

/-- A successful ReadBool never moves the cursor backwards. -/
theorem readBool_ok_mono (r : StringReader) (b : Bool) (r' : StringReader)
    (h : ReadBool r = (.ok b, r')) : r.Cursor ≤ r'.Cursor := by
  simp only [ReadBool] at h
  split at h
  · rename_i e r2 heq
    simp [Prod.mk.injEq] at h
  · rename_i value r2 heq
    split at h
    · simp [Prod.mk.injEq] at h
    · split at h
      · simp only [Prod.mk.injEq] at h
        rw [← h.2]
        exact readString_ok_mono _ _ _ heq
      · split at h
        · simp only [Prod.mk.injEq] at h
          rw [← h.2]
          exact readString_ok_mono _ _ _ heq
        · simp [Prod.mk.injEq] at h

/-- A successful ReadInt never moves the cursor backwards. -/
theorem readIntGo_ok_mono (r : StringReader) (i : Int) (r' : StringReader)
    (h : ReadIntGo r = (.ok i, r')) : r.Cursor ≤ r'.Cursor := by
  simp only [ReadIntGo] at h
  split at h
  · simp [Prod.mk.injEq] at h
  · split at h
    · simp only [Prod.mk.injEq] at h
      rw [← h.2]
      exact (readNumberAux_mono _ _).1
    · simp [Prod.mk.injEq] at h

/-- A successful parse of any builtin argument type never moves the cursor
backwards (the greedy string jumps to the end of the input, which is at
or past a cursor within bounds). -/
theorem argTypeParse_ok_mono (ty : ArgType) (rd : StringReader) (v : Value)
    (rd' : StringReader) (hcur : rd.Cursor ≤ rd.String.length)
    (h : ArgTypeParse ty rd = (.ok v, rd')) : rd.Cursor ≤ rd'.Cursor := by
  cases ty with
  | bool =>
    simp only [ArgTypeParse] at h
    split at h
    · simp [Prod.mk.injEq] at h
    · rename_i b r2 heq
      simp only [Prod.mk.injEq] at h
      rw [← h.2]
      exact readBool_ok_mono _ _ _ heq
  | int lo hi =>
    simp only [ArgTypeParse] at h
    split at h
    · simp [Prod.mk.injEq] at h
    · rename_i i r2 heq
      split at h
      · simp [Prod.mk.injEq] at h
      · split at h
        · simp [Prod.mk.injEq] at h
        · simp only [Prod.mk.injEq] at h
          rw [← h.2]
          exact readIntGo_ok_mono _ _ _ heq
  | str kind =>
    cases kind with
    | GreedyPhrase =>
      simp only [ArgTypeParse, Prod.mk.injEq] at h
      rw [← h.2]
      exact hcur
    | SingleWord =>
      simp only [ArgTypeParse, ReadUnquotedString, Prod.mk.injEq] at h
      rw [← h.2]
      exact (readUnquotedStringAux_mono _ _).1
    | QuotablePhase =>
      simp only [ArgTypeParse] at h
      split at h
      · simp [Prod.mk.injEq] at h
      · rename_i s r2 heq
        simp only [Prod.mk.injEq] at h
        rw [← h.2]
        exact readString_ok_mono _ _ _ heq

/-- A successful literal match moves the cursor to the end of the literal,
never backwards. -/
theorem literalParseEnd_some_mono (lit : List Char) (rd : StringReader) (stop : Nat)
    (rd' : StringReader) (h : literalParseEnd lit rd = (some stop, rd')) :
    rd.Cursor ≤ rd'.Cursor := by
  simp only [literalParseEnd] at h
  split at h
  · split at h
    · split at h
      · simp only [Prod.mk.injEq] at h
        rw [← h.2]
        exact Nat.le_add_right _ _
      · simp [Prod.mk.injEq] at h
    · simp [Prod.mk.injEq] at h
  · simp [Prod.mk.injEq] at h

/-- C7: cursor monotonicity and rewind-on-failure inside parseNodes.
First: a successful child parse (root, literal or argument node) leaves
the reader cursor at or past its value before the attempt.  Second and
third: when the child parse fails, or succeeds but the next character
is readable and is not the argument separator (the synthesized
ExpectedArgumentSeparator case), the loop step records the error under
that child and continues with the untouched original reader, whose
cursor is its value before the attempt, for the subsequent
alternatives. -/
theorem parseNodes_cursor_monotone_rewind
    (pn : StringReader → Nat → CommandContextData → ParseResults) (d : Dispatcher)
    (originalReader : StringReader) (ctxSoFar ctx2 : CommandContextData)
    (errs : List (Nat × Err)) (pots : List ParseResults) (childId : Nat) (e : Err)
    (rdE rd2 : StringReader) :
    (∀ (cid : Nat) (ctx ctx' : CommandContextData) (rd rd' : StringReader),
      rd.Cursor ≤ rd.String.length →
      childParse d cid ctx rd = .ok (ctx', rd') → rd.Cursor ≤ rd'.Cursor) ∧
    (CanUse (d.node childId) ctxSoFar.Context = true →
      childParse d childId ctxSoFar originalReader = .error (e, rdE) →
      parseStep pn d originalReader ctxSoFar (.inl (errs, pots)) childId =
        .inl (errs ++ [(childId, e)], pots)) ∧
    (CanUse (d.node childId) ctxSoFar.Context = true →
      childParse d childId ctxSoFar originalReader = .ok (ctx2, rd2) →
      rd2.CanRead = true → rd2.Peek ≠ ArgumentSeparator →
      parseStep pn d originalReader ctxSoFar (.inl (errs, pots)) childId =
        .inl (errs ++ [(childId, .expectedArgumentSeparator)], pots)) := by
  refine ⟨?_, ?_, ?_⟩
  · intro cid ctx ctx' rd rd' hcur h
    simp only [childParse] at h
    split at h
    · simp only [Except.ok.injEq, Prod.mk.injEq] at h
      rw [← h.2]
    · split at h
      · rename_i stop rd2' heq
        simp only [Except.ok.injEq, Prod.mk.injEq] at h
        rw [← h.2]
        exact literalParseEnd_some_mono _ _ _ _ heq
      · exact absurd h (by simp)
    · split at h
      · exact absurd h (by simp)
      · rename_i v rd2' heq
        simp only [Except.ok.injEq, Prod.mk.injEq] at h
        rw [← h.2]
        exact argTypeParse_ok_mono _ _ _ _ hcur heq
  · intro hcu herr
    simp [parseStep, hcu, herr]
  · intro hcu hok hcr hpeek
    simp [parseStep, hcu, hok, hcr, hpeek]

/-- Witness for parseNodes_cursor_monotone_rewind: a literal parse advances
the cursor, and a failed integer-argument attempt is recorded under its
child while the loop goes on with the original reader. -/
theorem parseNodes_cursor_monotone_rewind_witness :
    parseStep pnStub intArgDispatcher { Cursor := 0, String := ['z'] } zeroFrame
        (.inl ([], [])) 1 =
      .inl ([(1, .expectedInt)], []) :=
  (parseNodes_cursor_monotone_rewind pnStub intArgDispatcher
      { Cursor := 0, String := ['z'] } zeroFrame zeroFrame [] [] 1 .expectedInt
      { Cursor := 0, String := ['z'] } { Cursor := 0, String := ['z'] }).2.1
      rfl rfl

/-- C1: evaluation of the parse engine at the failing input.  On the tree
demoDispatcher with input a-space-w-space-b-space, two potentials are
gathered under the literal a, both with exhausted readers: the greedy
branch x with no recorded errors, and the branch y whose redirect ran
into ExpectedInt, carrying one error.  The comparator of parseNodes
sorts the errored result first (third conjunct: an errored result is
less than an error-free one among exhausted ties), so the parse returns
the y branch with its error map, not the error-free x branch the
claimed order would select. -/
theorem parseNodes_prefers_errored_branch :
    (ParseGo demoDispatcher 0 demoInput).Errs = [(6, .expectedInt)] ∧
    (ParseGo demoDispatcher 0 demoInput).Context.data.Nodes.map ParsedCommandNode.Node =
      [1, 3, 4] ∧
    lessResults
        { Context := .leaf zeroFrame, Reader := { Cursor := 6, String := demoInput },
          Errs := [(6, .expectedInt)] }
        { Context := .leaf zeroFrame, Reader := { Cursor := 6, String := demoInput },
          Errs := [] } = true := by
  refine ⟨by decide, by decide, by decide⟩

/-- C4 counterexample: Go map iteration order is unspecified, so iterating
the two argument children of the twoArgsDispatcher root in the order
b-then-a is legal; RelevantNodes then returns [2, 1], which is not the
insertion order [1, 2] the claim promises. -/
theorem relevantNodes_insertion_order_cex :
    GoMapIteration (twoArgsDispatcher.node 0).Arguments [(['b'], 2), (['a'], 1)] ∧
    RelevantNodesIter twoArgsDispatcher 0 { Cursor := 0, String := [] }
        [(['b'], 2), (['a'], 1)] = [2, 1] ∧
    (twoArgsDispatcher.node 0).Arguments.map (fun kv => kv.2) = [1, 2] ∧
    RelevantNodesIter twoArgsDispatcher 0 { Cursor := 0, String := [] }
        [(['b'], 2), (['a'], 1)] ≠
      (twoArgsDispatcher.node 0).Arguments.map (fun kv => kv.2) := by
  refine ⟨?_, by decide, by decide, by decide⟩
  have : (twoArgsDispatcher.node 0).Arguments = [(['a'], 1), (['b'], 2)] := by decide
  rw [this]
  exact List.Perm.swap _ _ _

/-- C4 (amended): when the node has literal children and the next
whitespace-delimited token (scanned without consuming) matches one of
them, RelevantNodes returns that single literal and only it, so no
argument child is tried; otherwise it returns exactly the argument
children, but in Go map iteration order, which is an arbitrary
permutation of the insertion order rather than the insertion order
itself. -/
theorem relevantNodes_literal_shortcircuit (d : Dispatcher) (nodeId : Nat)
    (rd : StringReader) (iter : List (List Char × Nat)) (lit : Nat)
    (hiter : GoMapIteration (d.node nodeId).Arguments iter) :
    ((d.node nodeId).Literals ≠ [] →
      lookupA (sliceL rd.String rd.Cursor (scanWordEnd rd)) (d.node nodeId).Literals =
        some lit →
      RelevantNodesIter d nodeId rd iter = [lit]) ∧
    (((d.node nodeId).Literals = [] ∨
      lookupA (sliceL rd.String rd.Cursor (scanWordEnd rd)) (d.node nodeId).Literals =
        none) →
      List.Perm (RelevantNodesIter d nodeId rd iter)
        ((d.node nodeId).Arguments.map (fun kv => kv.2))) := by
  constructor
  · intro hne hlook
    simp [RelevantNodesIter, hne, hlook]
  · intro hcase
    cases hcase with
    | inl hlit =>
      simp only [RelevantNodesIter, hlit, ne_eq, not_true_eq_false, if_false]
      exact (hiter.map (fun kv => kv.2)).symm
    | inr hnone =>
      by_cases hlit : (d.node nodeId).Literals = []
      · simp only [RelevantNodesIter, hlit, ne_eq, not_true_eq_false, if_false]
        exact (hiter.map (fun kv => kv.2)).symm
      · simp only [RelevantNodesIter, hlit, ne_eq, not_false_eq_true, if_true, hnone]
        exact (hiter.map (fun kv => kv.2)).symm

/-- Witness for relevantNodes_literal_shortcircuit: the root of the
two-argument tree has no literal children, so both argument children
are returned (a permutation of the argument map entries). -/
theorem relevantNodes_literal_shortcircuit_witness :
    List.Perm
      (RelevantNodesIter twoArgsDispatcher 0 { Cursor := 0, String := [] }
        (twoArgsDispatcher.node 0).Arguments)
      ((twoArgsDispatcher.node 0).Arguments.map (fun kv => kv.2)) :=
  (relevantNodes_literal_shortcircuit twoArgsDispatcher 0 { Cursor := 0, String := [] }
      (twoArgsDispatcher.node 0).Arguments 0 (List.Perm.refl _)).2 (Or.inl (by decide))

/-- Reading off the well-formedness of a dispatcher at one node. -/
theorem wfDispatcher_spec (d : Dispatcher) (hwf : wfDispatcher d = true) (i : Nat)
    (hi : i < d.Nodes.length) :
    keysNodup (d.node i).Children = true ∧
    ∀ kc ∈ (d.node i).Children,
      kc.2 < d.Nodes.length ∧ kc.2 ≠ 0 ∧ kc.1 = NodeName (d.node kc.2) := by
  simp only [wfDispatcher, List.all_eq_true, List.mem_range] at hwf
  have h := hwf i hi
  rw [Bool.and_eq_true] at h
  refine ⟨h.1, ?_⟩
  intro kc hkc
  have h2 := h.2
  rw [List.all_eq_true] at h2
  have h3 := h2 kc hkc
  simp only [Bool.and_eq_true, decide_eq_true_eq] at h3
  exact ⟨h3.1.1, h3.1.2, h3.2⟩

/-- Lookup in an association list with pairwise distinct keys finds any
entry it holds. -/
theorem lookupA_of_mem_nodup {β : Type} (l : List (List Char × β)) (k : List Char) (v : β)
    (hnd : keysNodup l = true) (hmem : (k, v) ∈ l) : lookupA k l = some v := by
  induction l with
  | nil => simp at hmem
  | cons kv rest ih =>
    obtain ⟨k', v'⟩ := kv
    simp only [keysNodup, Bool.and_eq_true, Bool.not_eq_true'] at hnd
    rcases List.mem_cons.mp hmem with heq | hmem'
    · have hk : k = k' := congrArg Prod.fst heq
      have hv : v = v' := congrArg Prod.snd heq
      simp [lookupA, hk, hv]
    · have hkne : k ≠ k' := by
        intro hkk
        subst hkk
        have hany : rest.any (fun kv => kv.1 = k) = true :=
          List.any_eq_true.mpr ⟨(k, v), hmem', by simp⟩
        rw [hany] at hnd
        simp at hnd
      simp only [lookupA, hkne, if_false]
      exact ih hnd.2 hmem'

/-- The last element of a nonempty list through getLast? and getLastD. -/
theorem getLast?_cons_getLastD (a : Nat) (l : List Nat) :
    (a :: l).getLast? = some (l.getLastD a) := by
  induction l generalizing a with
  | nil => rfl
  | cons b l' ih => rw [List.getLast?_cons_cons, ih, List.getLastD_cons]

/-- Completeness of the path enumeration of addPaths: every chain of child
edges within the bound appears (prefixed by the parents and the start
node). -/
theorem addPaths_mem_of_chain (d : Dispatcher) :
    ∀ (cs : List Nat) (fuel i : Nat) (ps : List Nat),
      chainFrom d i cs = true → cs.length < fuel →
      (ps ++ i :: cs) ∈ addPaths d fuel i ps := by
  intro cs
  induction cs with
  | nil =>
    intro fuel i ps _ hf
    match fuel, hf with
    | f + 1, _ => simp [addPaths]
  | cons c cs' ih =>
    intro fuel i ps hchain hf
    match fuel, hf with
    | f + 1, hf =>
      simp only [chainFrom, Bool.and_eq_true] at hchain
      obtain ⟨kc, hkcmem, hkc⟩ := List.any_eq_true.mp hchain.1
      have hkc2 : kc.2 = c := by simpa using hkc
      have hmem := ih f kc.2 (ps ++ [i]) (by rw [hkc2]; exact hchain.2)
        (Nat.lt_of_succ_lt_succ hf)
      simp only [addPaths]
      apply List.mem_cons_of_mem
      rw [List.mem_flatten]
      refine ⟨addPaths d f kc.2 (ps ++ [i]), ?_, ?_⟩
      · rw [List.mem_map]; exact ⟨kc, hkcmem, rfl⟩
      · rw [← hkc2]
        simpa using hmem

/-- Soundness of the path enumeration of addPaths: every recorded list is
the parents followed by a chain of child edges from the start node. -/
theorem addPaths_sound (d : Dispatcher) :
    ∀ (fuel i : Nat) (ps l : List Nat), l ∈ addPaths d fuel i ps →
      ∃ cs, l = ps ++ i :: cs ∧ chainFrom d i cs = true := by
  intro fuel
  induction fuel with
  | zero => intro i ps l h; simp [addPaths] at h
  | succ f ih =>
    intro i ps l h
    simp only [addPaths] at h
    rcases List.mem_cons.mp h with heq | hmem
    · exact ⟨[], by simpa using heq, rfl⟩
    · rw [List.mem_flatten] at hmem
      obtain ⟨sub, hsubmem, hlsub⟩ := hmem
      rw [List.mem_map] at hsubmem
      obtain ⟨kc, hkcmem, hsubeq⟩ := hsubmem
      rw [← hsubeq] at hlsub
      obtain ⟨cs', heq', hchain'⟩ := ih kc.2 (ps ++ [i]) l hlsub
      refine ⟨kc.2 :: cs', ?_, ?_⟩
      · rw [heq']; simp
      · simp only [chainFrom, Bool.and_eq_true]
        exact ⟨List.any_eq_true.mpr ⟨kc, hkcmem, by simp⟩, hchain'⟩

/-- Following a chain of child edges by the names of its nodes: FindNode
retraces the chain (child keys are the children's names and are
distinct within a node) and lands on its last node; no chain node is
the root. -/
theorem chainFrom_findNode (d : Dispatcher) (hwf : wfDispatcher d = true) :
    ∀ (cs : List Nat) (cur : Nat), cur < d.Nodes.length → chainFrom d cur cs = true →
      FindNode d (cs.map (fun i => NodeName (d.node i))) cur = some (cs.getLastD cur) ∧
      0 ∉ cs := by
  intro cs
  induction cs with
  | nil => intro cur _ _; exact ⟨rfl, by simp⟩
  | cons c cs' ih =>
    intro cur hcur hchain
    simp only [chainFrom, Bool.and_eq_true] at hchain
    obtain ⟨kc, hkcmem, hkc⟩ := List.any_eq_true.mp hchain.1
    have hkc2 : kc.2 = c := by simpa using hkc
    obtain ⟨hnd, hprops⟩ := wfDispatcher_spec d hwf cur hcur
    obtain ⟨hlt, hne0, hname⟩ := hprops kc hkcmem
    rw [hkc2] at hlt hne0 hname
    have hkceq : kc = (NodeName (d.node c), c) := by
      obtain ⟨k1, k2⟩ := kc
      simp only at hname hkc2
      rw [hname, hkc2]
    have hlook : lookupA (NodeName (d.node c)) (d.node cur).Children = some c := by
      apply lookupA_of_mem_nodup _ _ _ hnd
      rw [← hkceq]
      exact hkcmem
    obtain ⟨hfind, hzero⟩ := ih c hlt hchain.2
    refine ⟨?_, ?_⟩
    · simp only [List.map_cons, FindNode, hlook]
      rw [hfind, List.getLastD_cons]
    · simp only [List.mem_cons, not_or]
      exact ⟨fun h0 => hne0 h0.symm, hzero⟩

/-- C6: Path/FindNode round-trip.  For a well-formed tree and any chain
of child edges from the root ending at a non-root node n (the bound
exceeding the chain length), Path finds a path for n and FindNode
applied to it returns exactly n. -/
theorem findNode_path_roundtrip (d : Dispatcher) (fuel n : Nat) (cs : List Nat)
    (hwf : wfDispatcher d = true) (hroot : 0 < d.Nodes.length)
    (hchain : chainFrom d 0 cs = true) (hlast : cs.getLastD 0 = n) (_hn : n ≠ 0)
    (hfuel : cs.length < fuel) :
    ∃ names, Path d fuel n = some names ∧ FindNode d names 0 = some n := by
  have hmem : ([] ++ 0 :: cs) ∈ addPaths d fuel 0 [] :=
    addPaths_mem_of_chain d cs fuel 0 [] hchain hfuel
  simp only [List.nil_append] at hmem
  have hpred : (0 :: cs).getLast? = some n := by
    rw [getLast?_cons_getLastD, hlast]
  have hsome : ((addPaths d fuel 0 []).find?
      (fun l => l.getLast? = some n)).isSome := by
    rw [List.find?_isSome]
    exact ⟨0 :: cs, hmem, by simp [hpred]⟩
  obtain ⟨l', hfind⟩ := Option.isSome_iff_exists.mp hsome
  have hpl' : l'.getLast? = some n := by
    have := List.find?_some hfind
    simpa using this
  have hml' := List.mem_of_find?_eq_some hfind
  obtain ⟨cs', heq', hchain'⟩ := addPaths_sound d fuel 0 [] l' hml'
  simp only [List.nil_append] at heq'
  subst heq'
  obtain ⟨hfindnode, hzero⟩ := chainFrom_findNode d hwf cs' 0 hroot hchain'
  have hlast' : cs'.getLastD 0 = n := by
    rw [getLast?_cons_getLastD] at hpl'
    exact Option.some.inj hpl'
  have hfilter : (0 :: cs').filter (fun i => i ≠ 0) = cs' := by
    have h0f : (0 :: cs').filter (fun i => i ≠ 0) = cs'.filter (fun i => i ≠ 0) := by
      simp
    rw [h0f, List.filter_eq_self]
    intro a ha
    simp only [ne_eq, decide_eq_true_eq]
    intro h0
    exact hzero (h0 ▸ ha)
  refine ⟨cs'.map (fun i => NodeName (d.node i)), ?_, ?_⟩
  · simp only [Path, hfind]
    rw [hfilter]
  · rw [hfindnode, hlast']

/-- Witness for findNode_path_roundtrip: in the tree root to foo to bar,
FindNode of Path of the node bar is bar. -/
theorem findNode_path_roundtrip_witness :
    ∃ names, Path pathDispatcher 4 2 = some names ∧
      FindNode pathDispatcher names 0 = some 2 :=
  findNode_path_roundtrip pathDispatcher 4 2 [1, 2] (by decide) (by decide) (by decide)
    (by decide) (by decide) (by decide)

/-- Rebasing a context onto another host does not change its chain depth. -/
theorem copyFor_depth (h : Nat) (c : CommandContext) : (c.CopyFor h).depth = c.depth := by
  cases c <;> rfl

/-- Depth of a nonempty generation element. -/
theorem depth_pos (c : CommandContext) : 1 ≤ c.depth := by
  cases c <;> simp [CommandContext.depth]

/-- Sum of depths over a cons. -/
theorem sumDepth_cons (c : CommandContext) (l : List CommandContext) :
    sumDepth (c :: l) = c.depth + sumDepth l := by
  simp [sumDepth]

/-- A generation with total depth zero is empty. -/
theorem sumDepth_eq_zero (cs : List CommandContext) (h : sumDepth cs = 0) : cs = [] := by
  cases cs with
  | nil => rfl
  | cons c rest =>
    rw [sumDepth_cons] at h
    have := depth_pos c
    omega

/-- A child context is one link shorter than its parent. -/
theorem child_depth (c ch : CommandContext) (h : c.Child = some ch) :
    ch.depth + 1 = c.depth := by
  cases c with
  | leaf f => simp [CommandContext.Child] at h
  | link f ch' =>
    simp only [CommandContext.Child, Option.some.injEq] at h
    subst h
    simp [CommandContext.depth]
    omega

/-- Each successful stepGen shrinks the total depth by at least the number
of processed contexts: every enqueued child is one link shorter than
its parent and each context enqueues at most one child. -/
theorem stepGen_depth (cmds : CmdEnv) (mods : ModEnv) :
    ∀ (cs : List CommandContext) (fk fd : Bool) (next : List CommandContext)
      (fk' fd' : Bool),
      stepGen cmds mods cs fk fd = .ok (next, fk', fd') →
      sumDepth next + cs.length ≤ sumDepth cs := by
  intro cs
  induction cs with
  | nil =>
    intro fk fd next fk' fd' h
    simp only [stepGen, Except.ok.injEq, Prod.mk.injEq] at h
    rw [← h.1]
    simp [sumDepth]
  | cons c rest ih =>
    intro fk fd next fk' fd' h
    have hd := depth_pos c
    simp only [stepGen] at h
    split at h
    · -- child present
      rename_i ch hch
      have hchd := child_depth c ch hch
      split at h
      · -- child has nodes
        split at h
        · -- no modifier
          cases hrest : stepGen cmds mods rest (fk || c.data.Forks) true with
          | error e => rw [hrest] at h; simp [Except.map] at h
          | ok tr =>
            obtain ⟨next0, fk0, fd0⟩ := tr
            rw [hrest] at h
            simp only [Except.map, Except.ok.injEq, Prod.mk.injEq] at h
            have hih := ih _ _ _ _ _ hrest
            rw [← h.1, sumDepth_cons, copyFor_depth, List.length_cons, sumDepth_cons]
            omega
        · -- modifier present
          split at h
          · -- modifier error
            split at h
            · simp at h
            · have hih := ih _ _ _ _ _ h
              rw [List.length_cons, sumDepth_cons]
              omega
          · -- modifier ok
            cases hrest : stepGen cmds mods rest (fk || c.data.Forks) true with
            | error e => rw [hrest] at h; simp [Except.map] at h
            | ok tr =>
              obtain ⟨next0, fk0, fd0⟩ := tr
              rw [hrest] at h
              simp only [Except.map, Except.ok.injEq, Prod.mk.injEq] at h
              have hih := ih _ _ _ _ _ hrest
              rw [← h.1, sumDepth_cons, copyFor_depth, List.length_cons, sumDepth_cons]
              omega
      · -- child without nodes
        have hih := ih _ _ _ _ _ h
        rw [List.length_cons, sumDepth_cons]
        omega
    · -- no child
      split at h
      · -- command present
        split at h
        · -- command error
          split at h
          · simp at h
          · have hih := ih _ _ _ _ _ h
            rw [List.length_cons, sumDepth_cons]
            omega
        · have hih := ih _ _ _ _ _ h
          rw [List.length_cons, sumDepth_cons]
          omega
      · have hih := ih _ _ _ _ _ h
        rw [List.length_cons, sumDepth_cons]
        omega

/-- The generation walk is insensitive to its bound above the total depth
of the initial generation, so the bound chosen in Execute never
changes the result: the walk it runs equals the walk at any larger
bound. -/
theorem walk_fuel_sufficient (cmds : CmdEnv) (mods : ModEnv) :
    ∀ (m : Nat) (cs : List CommandContext) (fk fd : Bool) (f g : Nat),
      sumDepth cs ≤ m → sumDepth cs < f → sumDepth cs < g →
      walk cmds mods f cs fk fd = walk cmds mods g cs fk fd := by
  intro m
  induction m with
  | zero =>
    intro cs fk fd f g hm hf hg
    have hcs : cs = [] := sumDepth_eq_zero cs (Nat.le_zero.mp hm)
    subst hcs
    match f, hf, g, hg with
    | f' + 1, _, g' + 1, _ => rfl
  | succ m ih =>
    intro cs fk fd f g hm hf hg
    cases cs with
    | nil =>
      match f, hf, g, hg with
      | f' + 1, _, g' + 1, _ => rfl
    | cons c rest =>
      have hd := depth_pos c
      rw [sumDepth_cons] at hm hf hg
      match f, hf, g, hg with
      | f' + 1, hf, g' + 1, hg =>
        simp only [walk]
        cases hstep : stepGen cmds mods (c :: rest) fk fd with
        | error e => rfl
        | ok tr =>
          obtain ⟨next, fk', fd'⟩ := tr
          have hdec := stepGen_depth cmds mods (c :: rest) fk fd next fk' fd' hstep
          rw [List.length_cons, sumDepth_cons] at hdec
          exact ih next fk' fd' f' g' (by omega) (by omega) (by omega)

end Brigodier
